import Mathlib

/-!
Shallow embedding of the SHPE Capital Analysts trading engine
(`src/strategy.py`, `src/backtester.py`, `src/performance.py`, and the
allocation block of `src/web_gui.py`), together with theorems checking the
specification's statements against it.

Modelling conventions:
* prices and money amounts are rationals (`ℚ`); the Python code uses IEEE
  doubles, whose arithmetic is exact on the small concrete inputs used in
  witnesses, and all properties below are algebraic;
* a pandas `NaN` entry is modelled as `Option.none`; IEEE comparisons with
  `NaN` are all false, which `optGT` / `optLT` reproduce;
* a pandas series is a Lean `List`, positional index = list index.
-/

namespace SHPE

/-! ## Indicator library (`strategy.py`) -/

/-- One entry of `series.rolling(window=w, min_periods=1).mean()`:
the arithmetic mean of the trailing `min (t+1) w` values ending at `t`. -/
def rollingMeanAt (w : Nat) (xs : List ℚ) (t : Nat) : ℚ :=
  let window := (xs.take (t + 1)).drop (t + 1 - w)
  window.sum / (window.length : ℚ)

/-- `series.rolling(window=w, min_periods=1).mean()` as a list. -/
def rollingMean (w : Nat) (xs : List ℚ) : List ℚ :=
  (List.range xs.length).map (rollingMeanAt w xs)

/-- Entry `t` of `delta.where(delta > 0, 0)` where `delta = prices.diff()`.
The `NaN` at `t = 0` fails the `> 0` test, so `where` replaces it by `0`. -/
def diffGain (xs : List ℚ) (t : Nat) : ℚ :=
  if t = 0 then 0
  else
    let d := xs.getD t 0 - xs.getD (t - 1) 0
    if 0 < d then d else 0

/-- Entry `t` of `(-delta.where(delta < 0, 0))`: the magnitude of a negative
first difference, `0` otherwise (including the `NaN` at `t = 0`). -/
def diffLoss (xs : List ℚ) (t : Nat) : ℚ :=
  if t = 0 then 0
  else
    let d := xs.getD t 0 - xs.getD (t - 1) 0
    if d < 0 then -d else 0

/-- Mean of `f` over the full window of `period` indices ending at `t`
(used only when `period ≤ t + 1`, where `rolling(period).mean()` is defined). -/
def windowMean (f : Nat → ℚ) (period t : Nat) : ℚ :=
  ((((List.range (t + 1)).drop (t + 1 - period)).map f).sum) / (period : ℚ)

/-- Embedding of `calculate_rsi(prices, period)`.

`gain`/`loss` are rolling means with the default `min_periods`, hence
undefined (`none`) for `t + 1 < period`.  `rs = gain / loss` follows IEEE
semantics: positive / 0 is `+∞`, which maps through `100 - 100/(1+rs)` to
exactly `100`; `0 / 0` is `NaN` (`none`). -/
def calculate_rsi (prices : List ℚ) (period : Nat) : List (Option ℚ) :=
  (List.range prices.length).map (fun t =>
    if t + 1 < period then none
    else
      let g := windowMean (diffGain prices) period t
      let l := windowMean (diffLoss prices) period t
      if l = 0 then (if g = 0 then none else some 100)
      else some (100 - 100 / (1 + g / l)))

/-! ## Signal generator (`generate_signals`) -/

structure SignalParams where
  short_window : Nat
  long_window : Nat
  use_rsi : Bool
  rsi_oversold : ℚ
  rsi_overbought : ℚ
  deriving Repr, DecidableEq

/-- Columns added by `generate_signals` on top of the copied price data. -/
structure SignalFrame where
  prices : List ℚ
  short_mavg : List ℚ
  long_mavg : List ℚ
  rsi : List (Option ℚ)
  signal : List ℚ
  positions : List (Option ℚ)
  deriving Repr, DecidableEq

/-- Elementwise `np.where(a > b, 1.0, 0.0)`. -/
def whereGT (a b : List ℚ) : List ℚ :=
  List.zipWith (fun x y => if y < x then (1 : ℚ) else 0) a b

/-- `signals.loc[signals.index[k:], col] = vals` on a column `base`:
keep the first `k` entries, replace the tail by `vals`. -/
def setSliceFrom (base : List ℚ) (k : Nat) (vals : List ℚ) : List ℚ :=
  base.take k ++ vals

/-- `series.diff()`: `NaN` at index 0, consecutive difference elsewhere. -/
def seriesDiff (xs : List ℚ) : List (Option ℚ) :=
  (List.range xs.length).map (fun t =>
    if t = 0 then none else some (xs.getD t 0 - xs.getD (t - 1) 0))

/-- IEEE comparison `r > x` where `r` may be `NaN`: false on `NaN`. -/
def optGT (r : Option ℚ) (x : ℚ) : Bool :=
  match r with
  | none => false
  | some v => decide (x < v)

/-- IEEE comparison `r < x` where `r` may be `NaN`: false on `NaN`. -/
def optLT (r : Option ℚ) (x : ℚ) : Bool :=
  match r with
  | none => false
  | some v => decide (v < x)

/-- The two RSI masking assignments of `generate_signals`: suppress a `+1`
when the RSI is strictly above `ob`, then suppress a `-1` when the RSI is
strictly below `os`.  The two masks hit disjoint entries, so a single pass
reproduces the two sequential `signals.loc[...] = 0.0` writes. -/
def applyRsiFilter (os ob : ℚ) (rsi : List (Option ℚ)) (pos : List (Option ℚ)) :
    List (Option ℚ) :=
  List.zipWith (fun r p =>
    if p = some 1 ∧ optGT r ob then some 0
    else if p = some (-1) ∧ optLT r os then some 0
    else p) rsi pos

/-- Embedding of `generate_signals(data, short_window, long_window, use_rsi,
rsi_oversold, rsi_overbought)`.  `data` is the `Adj Close` column; the Python
function returns `None` (its insufficient-data failure value) when
`len(data) < long_window`, embedded as `Option.none`. -/
def generate_signals (data : List ℚ) (p : SignalParams) : Option SignalFrame :=
  if data.length < p.long_window then none
  else
    let short := rollingMean p.short_window data
    let long := rollingMean p.long_window data
    let r := calculate_rsi data 14
    let base : List ℚ := List.replicate data.length 0
    let sig := setSliceFrom base p.long_window
      (whereGT (short.drop p.long_window) (long.drop p.long_window))
    let rawpos := seriesDiff sig
    let pos := if p.use_rsi then applyRsiFilter p.rsi_oversold p.rsi_overbought r rawpos
      else rawpos
    some ⟨data, short, long, r, sig, pos⟩

/-! ## Portfolio simulator (`backtester.py`, `run_backtest` bar loop) -/

/-- Internal simulator state: the three loop variables of `run_backtest`. -/
structure Ledger where
  cash : ℚ
  positions : ℚ
  last_buy_price : ℚ
  deriving Repr, DecidableEq

instance : Inhabited Ledger := ⟨⟨0, 0, 0⟩⟩

/-- One iteration of the `run_backtest` loop: buy on `+1` with cash
available, else sell on `-1` with a position, else — only when neither
branch fired — the optional stop-loss exit.  A `NaN` signal compares unequal
to both `1.0` and `-1.0`, so it takes the stop-loss branch. -/
def stepBar (stop_loss_pct : Option ℚ) (st : Ledger) (price : ℚ)
    (signal : Option ℚ) : Ledger :=
  if signal = some 1 ∧ 0 < st.cash then ⟨0, st.cash / price, price⟩
  else if signal = some (-1) ∧ 0 < st.positions then ⟨st.positions * price, 0, 0⟩
  else
    match stop_loss_pct with
    | some sl =>
        if 0 < st.positions ∧ price < st.last_buy_price * (1 - sl) then
          ⟨st.positions * price, 0, 0⟩
        else st
    | none => st

/-- A variant of the bar step written from the specification's sentence
rather than from the code: here the stop-loss is inspected only on bars
where the signal series issues no explicit position change (`0` or the
undefined first entry). -/
def stepBarClaim (stop_loss_pct : Option ℚ) (st : Ledger) (price : ℚ)
    (signal : Option ℚ) : Ledger :=
  if signal = some 1 ∧ 0 < st.cash then ⟨0, st.cash / price, price⟩
  else if signal = some (-1) ∧ 0 < st.positions then ⟨st.positions * price, 0, 0⟩
  else if signal = some 0 ∨ signal = none then
    match stop_loss_pct with
    | some sl =>
        if 0 < st.positions ∧ price < st.last_buy_price * (1 - sl) then
          ⟨st.positions * price, 0, 0⟩
        else st
    | none => st
  else st

/-- One row of the `portfolio` DataFrame, plus the (internal) unit count at
that bar for stating the ledger invariants. -/
structure BarRecord where
  holdings : ℚ
  cash : ℚ
  total : ℚ
  units : ℚ
  deriving Repr, DecidableEq

instance : Inhabited BarRecord := ⟨⟨0, 0, 0, 0⟩⟩

/-- The bar loop: step the ledger, then write the bar's row
(`holdings = positions * price`, `cash`, `total = cash + holdings`).
A bar is a pair (adjusted close price, `positions` signal); the step
function is a parameter so the code's step and the claim-worded step can
be replayed through the same loop. -/
def backtestRows (step : Ledger → ℚ → Option ℚ → Ledger) (st : Ledger) :
    List (ℚ × Option ℚ) → List BarRecord
  | [] => []
  | (price, sig) :: rest =>
      let st2 := step st price sig
      ⟨st2.positions * price, st2.cash, st2.cash + st2.positions * price,
        st2.positions⟩ :: backtestRows step st2 rest

/-- Embedding of the bar loop of `run_backtest`. -/
def run_backtest (stop_loss_pct : Option ℚ) (initial_capital : ℚ)
    (bars : List (ℚ × Option ℚ)) : List BarRecord :=
  backtestRows (stepBar stop_loss_pct) ⟨initial_capital, 0, 0⟩ bars

/-- The well-formedness invariant the ledger maintains bar to bar:
non-negative cash, non-negative units, never both strictly positive. -/
def ledgerOK (st : Ledger) : Prop :=
  0 ≤ st.cash ∧ 0 ≤ st.positions ∧ ¬(0 < st.cash ∧ 0 < st.positions)

/-! ## Win-rate block of `run_backtest` -/

/-- The filter `signals["positions"][signals["positions"] != 0]`, keeping
the bar's price alongside.  In IEEE arithmetic `NaN != 0` is true, so the
undefined first entry of a `diff`-derived column passes this filter. -/
def tradesOf (bars : List (ℚ × Option ℚ)) : List (ℚ × Option ℚ) :=
  bars.filter (fun b =>
    match b.2 with
    | none => true
    | some v => decide (v ≠ 0))

/-- The filter as the specification words it: the subsequence of bars whose
position change is an actual non-zero value (the undefined first entry is
not an event). -/
def tradesClaim (bars : List (ℚ × Option ℚ)) : List (ℚ × Option ℚ) :=
  bars.filter (fun b =>
    match b.2 with
    | none => false
    | some v => decide (v ≠ 0))

/-- The `wins` loop: count indices `j` with `trades[j] == 1.0`,
`trades[j+1] == -1.0` and a strictly higher sell price. -/
def countWins : List (ℚ × Option ℚ) → Nat
  | [] => 0
  | [_] => 0
  | a :: b :: rest =>
      (if a.2 = some 1 ∧ b.2 = some (-1) ∧ a.1 < b.1 then 1 else 0) +
        countWins (b :: rest)

/-- `win_rate = (wins / total_trades) * 100 if total_trades > 0 else 0`
with `total_trades = len(trades) // 2`, over a given trades list. -/
def winRateOfTrades (trades : List (ℚ × Option ℚ)) : ℚ :=
  let total := trades.length / 2
  if 0 < total then ((countWins trades : ℚ) / (total : ℚ)) * 100 else 0

/-- The win-rate statistic of `run_backtest` as the code computes it. -/
def win_rate (bars : List (ℚ × Option ℚ)) : ℚ :=
  winRateOfTrades (tradesOf bars)

/-- The win-rate statistic as the specification describes it (non-zero
events only). -/
def win_rate_claim (bars : List (ℚ × Option ℚ)) : ℚ :=
  winRateOfTrades (tradesClaim bars)

/-! ## Performance statistics (`performance.py`) -/

/-- Running maximum with accumulator `m` (`cummax` after the first entry). -/
def cummaxAux (m : ℚ) : List ℚ → List ℚ
  | [] => []
  | x :: rest => max m x :: cummaxAux (max m x) rest

/-- `series.cummax()`. -/
def cummax : List ℚ → List ℚ
  | [] => []
  | x :: rest => x :: cummaxAux x rest

/-- `series.min()` of a non-empty series (`0` on an empty one, unused). -/
def seriesMin : List ℚ → ℚ
  | [] => 0
  | x :: rest => rest.foldl min x

/-- Prefix maximum of the first `t + 1` entries, used to state the
"running maximum to date" formulation independently of `cummax`. -/
def prefixMax (xs : List ℚ) (t : Nat) : ℚ :=
  match xs.take (t + 1) with
  | [] => 0
  | y :: rest => rest.foldl max y

/-- Embedding of `calculate_max_drawdown(equity_curve)`. -/
def calculate_max_drawdown (equity_curve : List ℚ) : ℚ :=
  let running_max := cummax equity_curve
  let drawdown := List.zipWith (fun v m => (v - m) / m) equity_curve running_max
  seriesMin drawdown * 100

/-! ## Allocation block of `web_gui.py` (`run_portfolio_analysis`) -/

/-- Sharpe-proportional weights: floor each Sharpe at `0.01`, normalize. -/
def smartWeights (sharpes : List ℚ) : List ℚ :=
  let floored := sharpes.map (fun s => max s (1 / 100))
  floored.map (fun f => f / floored.sum)

/-- Equal weights `1/N`. -/
def equalWeights (n : Nat) : List ℚ :=
  List.replicate n (1 / (n : ℚ))

/-- Per-ticker input to the allocation block: the observed dates (as
abstract ordinals), the equity-curve values from the fixed 10000-capital
run, and the ticker's Sharpe ratio (assumed defined). -/
structure StockResult where
  dates : List Nat
  portfolio_vals : List ℚ
  sharpe : ℚ
  deriving Repr, DecidableEq

/-- One stock's pass of the accumulation loop over `common_dates`: add the
stock's rescaled value where it has a bar, leave the slot unchanged where it
does not (the `elif j > 0: pass` branch adds nothing). -/
def addStock (common : List Nat) (dates : List Nat) (scaled : List ℚ)
    (acc : List ℚ) : List ℚ :=
  List.zipWith (fun d a =>
    match (dates.zip scaled).lookup d with
    | some v => a + v
    | none => a) common acc

/-- Output of the allocation block. -/
structure PortOut where
  weights : List ℚ
  allocations : List ℚ
  profits : List ℚ
  common_dates : List Nat
  portfolio_values : List ℚ
  total_profit : ℚ
  total_return_pct : ℚ
  deriving Repr, DecidableEq

/-- Embedding of the allocation/aggregation tail of
`run_portfolio_analysis`: weights from Sharpe (or equal), capital split,
per-ticker curves rescaled by `allocation / 10000`, per-ticker profit
`scaled_vals[-1] - allocation`, sorted union of all observed dates,
aggregate curve accumulated per date, `total_profit` as the sum of
per-ticker profits and `total_return_pct = total_profit / capital * 100`. -/
def run_portfolio_analysis (capital : ℚ) (smart : Bool)
    (rs : List StockResult) : PortOut :=
  let weights := if smart then smartWeights (rs.map (fun s => s.sharpe))
    else equalWeights rs.length
  let allocations := weights.map (fun w => w * capital)
  let scaledList := List.zipWith
    (fun (s : StockResult) (alloc : ℚ) =>
      s.portfolio_vals.map (fun v => v * (alloc / 10000))) rs allocations
  let profits := List.zipWith
    (fun (scaled : List ℚ) (alloc : ℚ) =>
      match scaled.getLast? with
      | some v => v - alloc
      | none => 0) scaledList allocations
  let common := List.insertionSort (fun a b => a ≤ b)
    ((rs.foldr (fun s acc => s.dates ++ acc) []).dedup)
  let pv := (List.zipWith (fun (s : StockResult) (scaled : List ℚ) =>
      (s.dates, scaled)) rs scaledList).foldl
    (fun acc p => addStock common p.1 p.2 acc)
    (List.replicate common.length 0)
  let total_profit := profits.sum
  ⟨weights, allocations, profits, common, pv, total_profit,
    (total_profit / capital) * 100⟩

/-! ## Heap model of `generate_signals` for the frame-effect property

Pandas DataFrames are mutable heap objects; `signals = data.copy()`
allocates a fresh one and every subsequent column write in
`generate_signals` mutates `signals` in place.  To state that the *input*
frame is untouched we re-run the function over an explicit heap of frames:
a read never changes the heap, `copy` appends a fresh frame, and each
column assignment of the source is one `writeCol` on the copy's reference. -/

/-- A column's payload: numeric, or numeric-with-`NaN`s. -/
inductive ColVal where
  | qcol : List ℚ → ColVal
  | ocol : List (Option ℚ) → ColVal
  deriving Repr, DecidableEq

/-- A DataFrame: named columns in insertion order. -/
structure Frame where
  cols : List (String × ColVal)
  deriving Repr, DecidableEq

/-- Read a numeric column (empty when absent or of the other shape). -/
def Frame.getQ (f : Frame) (name : String) : List ℚ :=
  match f.cols.lookup name with
  | some (ColVal.qcol l) => l
  | _ => []

/-- Write a column: overwrite in place when present, append when new. -/
def Frame.setCol (f : Frame) (name : String) (v : ColVal) : Frame :=
  if (f.cols.lookup name).isSome then
    ⟨f.cols.map (fun q => if q.1 = name then (name, v) else q)⟩
  else ⟨f.cols ++ [(name, v)]⟩

/-- The heap: frames addressed by allocation order. -/
abbrev Heap := List Frame

def heapGet (h : Heap) (r : Nat) : Frame := h.getD r ⟨[]⟩

def heapSet (h : Heap) (r : Nat) (f : Frame) : Heap := h.set r f

/-- An in-place column assignment `frame_r[name] = v`. -/
def writeCol (h : Heap) (r : Nat) (name : String) (v : ColVal) : Heap :=
  heapSet h r ((heapGet h r).setCol name v)

/-- Heap-level rerun of `generate_signals`: `data.copy()` allocates the
frame `sref`; each later source line is a `writeCol` on `sref` whose value
is computed by the pure column functions above (reads of `data` or of
`signals` mutate nothing).  Returns the final heap and the reference of the
result frame (`none` on the insufficient-data early return). -/
def generate_signals_heap (p : SignalParams) (h : Heap) (dref : Nat) :
    Heap × Option Nat :=
  let data := heapGet h dref
  let prices := data.getQ "Adj Close"
  if prices.length < p.long_window then (h, none)
  else
    let sref := h.length
    let h0 := h ++ [data]
    let h1 := writeCol h0 sref "short_mavg"
      (ColVal.qcol (rollingMean p.short_window prices))
    let h2 := writeCol h1 sref "long_mavg"
      (ColVal.qcol (rollingMean p.long_window prices))
    let h3 := writeCol h2 sref "rsi" (ColVal.ocol (calculate_rsi prices 14))
    let base : List ℚ := List.replicate prices.length 0
    let h4 := writeCol h3 sref "signal" (ColVal.qcol base)
    let short := rollingMean p.short_window prices
    let long := rollingMean p.long_window prices
    let sig := setSliceFrom base p.long_window
      (whereGT (short.drop p.long_window) (long.drop p.long_window))
    let h5 := writeCol h4 sref "signal" (ColVal.qcol sig)
    let rawpos := seriesDiff sig
    let h6 := writeCol h5 sref "positions" (ColVal.ocol rawpos)
    if p.use_rsi then
      let r := calculate_rsi prices 14
      let pos1 := List.zipWith (fun rv pp =>
        if pp = some 1 ∧ optGT rv p.rsi_overbought then some 0 else pp) r rawpos
      let h7 := writeCol h6 sref "positions" (ColVal.ocol pos1)
      let pos2 := List.zipWith (fun rv pp =>
        if pp = some (-1) ∧ optLT rv p.rsi_oversold then some 0 else pp) r pos1
      let h8 := writeCol h7 sref "positions" (ColVal.ocol pos2)
      (h8, some sref)
    else (h6, some sref)

/-! ## Theorems -/

/-- C1: a price series with fewer bars than `long_window` makes signal
generation fail with the insufficient-data error value (the Python `None`
return, embedded as `Option.none`), regardless of every other parameter,
and the heap-level run leaves the heap untouched — no computation is
performed on the series. -/
theorem C1_insufficient_data (data : List ℚ) (p : SignalParams) (h : Heap)
    (dref : Nat) (hlen : data.length < p.long_window) :
    generate_signals data p = none ∧
      ((heapGet h dref).getQ "Adj Close" = data →
        generate_signals_heap p h dref = (h, none)) := by
  constructor
  · simp [generate_signals, hlen]
  · intro hd
    simp [generate_signals_heap, hd, hlen]

/-- Witness for C1 at a concrete three-bar series and the default windows. -/
theorem C1_insufficient_data_witness :
    ([(1 : ℚ), 2, 3].length < (50 : Nat)) ∧
      (generate_signals [1, 2, 3] ⟨20, 50, true, 35, 70⟩ = none ∧
        ((heapGet [Frame.mk [("Adj Close", ColVal.qcol [1, 2, 3])]] 0).getQ "Adj Close"
            = [1, 2, 3] →
          generate_signals_heap ⟨20, 50, true, 35, 70⟩
            [Frame.mk [("Adj Close", ColVal.qcol [1, 2, 3])]] 0 =
            ([Frame.mk [("Adj Close", ColVal.qcol [1, 2, 3])]], none))) :=
  ⟨by decide, C1_insufficient_data [1, 2, 3] ⟨20, 50, true, 35, 70⟩
    [Frame.mk [("Adj Close", ColVal.qcol [1, 2, 3])]] 0 (by decide)⟩

theorem stepBar_ledgerOK (stop : Option ℚ) (st : Ledger) (price : ℚ)
    (sig : Option ℚ) (hprice : 0 < price) (h : ledgerOK st) :
    ledgerOK (stepBar stop st price sig) := by
  obtain ⟨hc, hp, hcp⟩ := h
  unfold stepBar
  by_cases h1 : sig = some 1 ∧ 0 < st.cash
  · simp only [if_pos h1, ledgerOK]
    refine ⟨le_refl 0, le_of_lt (div_pos h1.2 hprice), ?_⟩
    intro hcontra
    exact lt_irrefl 0 hcontra.1
  · rw [if_neg h1]
    by_cases h2 : sig = some (-1) ∧ 0 < st.positions
    · simp only [if_pos h2, ledgerOK]
      refine ⟨le_of_lt (mul_pos h2.2 hprice), le_refl 0, ?_⟩
      intro hcontra
      exact lt_irrefl 0 hcontra.2
    · rw [if_neg h2]
      cases stop with
      | none => exact ⟨hc, hp, hcp⟩
      | some sl =>
          dsimp only
          by_cases h3 : 0 < st.positions ∧ price < st.last_buy_price * (1 - sl)
          · simp only [if_pos h3, ledgerOK]
            refine ⟨le_of_lt (mul_pos h3.1 hprice), le_refl 0, ?_⟩
            intro hcontra
            exact lt_irrefl 0 hcontra.2
          · rw [if_neg h3]
            exact ⟨hc, hp, hcp⟩

theorem backtestRows_ledgerOK (stop : Option ℚ) :
    ∀ (bars : List (ℚ × Option ℚ)) (st : Ledger), ledgerOK st →
      (∀ b ∈ bars, 0 < b.1) →
      ∀ rec ∈ backtestRows (stepBar stop) st bars,
        0 ≤ rec.cash ∧ 0 ≤ rec.units ∧ ¬(0 < rec.cash ∧ 0 < rec.units) := by
  intro bars
  induction bars with
  | nil => intro st _ _ rec hrec; simp [backtestRows] at hrec
  | cons b rest ih =>
      intro st hst hpos rec hrec
      obtain ⟨price, sig⟩ := b
      have hprice : 0 < price := hpos (price, sig) (List.mem_cons_self _ _)
      have hst2 : ledgerOK (stepBar stop st price sig) :=
        stepBar_ledgerOK stop st price sig hprice hst
      simp only [backtestRows, List.mem_cons] at hrec
      rcases hrec with hrec | hrec
      · subst hrec
        exact hst2
      · exact ih (stepBar stop st price sig) hst2
          (fun b2 hb2 => hpos b2 (List.mem_cons_of_mem _ hb2)) rec hrec

/-- C3: at every bar of every simulation, on a price series of positive
prices and positive initial capital, the recorded ledger state is exclusive:
positive cash forces zero units, and positive units force zero cash. -/
theorem C3_flat_long_exclusive (stop : Option ℚ) (initial_capital : ℚ)
    (bars : List (ℚ × Option ℚ)) (hcap : 0 < initial_capital)
    (hpos : ∀ b ∈ bars, 0 < b.1) :
    ∀ rec ∈ run_backtest stop initial_capital bars,
      (0 < rec.cash → rec.units = 0) ∧ (0 < rec.units → rec.cash = 0) := by
  intro rec hrec
  have h := backtestRows_ledgerOK stop bars ⟨initial_capital, 0, 0⟩
    ⟨le_of_lt hcap, le_refl 0, fun hcontra => lt_irrefl 0 hcontra.2⟩
    hpos rec hrec
  obtain ⟨hc, hu, hcu⟩ := h
  constructor
  · intro hcash
    by_contra hne
    exact hcu ⟨hcash, lt_of_le_of_ne hu (Ne.symm hne)⟩
  · intro hunits
    by_contra hne
    exact hcu ⟨lt_of_le_of_ne hc (Ne.symm hne), hunits⟩

/-- Witness for C3: a buy, a hold, and a sell over three bars. -/
theorem C3_flat_long_exclusive_witness :
    ((0 : ℚ) < 1000 ∧ ∀ b ∈ [((100 : ℚ), some (1 : ℚ)), (110, some 0), (90, some (-1))], 0 < b.1) ∧
      ∀ rec ∈ run_backtest none 1000 [((100 : ℚ), some (1 : ℚ)), (110, some 0), (90, some (-1))],
        (0 < rec.cash → rec.units = 0) ∧ (0 < rec.units → rec.cash = 0) :=
  ⟨⟨by decide, by decide⟩,
    C3_flat_long_exclusive none 1000 [(100, some 1), (110, some 0), (90, some (-1))]
      (by decide) (by decide)⟩

/-- C2 counterexample: the claim says the stop-loss check is evaluated only
on bars whose `position_change` is `0`.  On the series below the second bar
carries an explicit `+1` signal while the ledger is already long (`cash = 0`,
so the buy branch cannot fire), and the code's stop-loss still triggers,
liquidating at 50; the step function written from the claim's sentence would
instead keep the position.  The two simulations disagree. -/
theorem C2_stop_loss_counterexample :
    run_backtest (some (1 / 10)) 1000 [(100, some 1), (50, some 1)] =
      [⟨1000, 0, 1000, 10⟩, ⟨0, 500, 500, 0⟩] ∧
    backtestRows (stepBarClaim (some (1 / 10))) ⟨1000, 0, 0⟩
        [(100, some 1), (50, some 1)] =
      [⟨1000, 0, 1000, 10⟩, ⟨500, 0, 500, 10⟩] ∧
    run_backtest (some (1 / 10)) 1000 [(100, some 1), (50, some 1)] ≠
      backtestRows (stepBarClaim (some (1 / 10))) ⟨1000, 0, 0⟩
        [(100, some 1), (50, some 1)] := by
  refine ⟨?_, ?_, ?_⟩
  · norm_num [run_backtest, backtestRows, stepBar]
  · simp only [backtestRows, stepBarClaim, reduceCtorEq, if_false]
    norm_num
  · simp only [ne_eq, run_backtest, backtestRows, stepBar, stepBarClaim,
      reduceCtorEq, if_false]
    norm_num

/-- C2 amended: when a stop-loss is configured, the position is long
(units positive, cash zero, as in every reachable long state) and the bar's
price is strictly below `entry_price * (1 - stop_loss_pct)`, the bar ends
flat with the proceeds `units * price` — whatever signal the bar carries.
The stop-loss comparison itself is reached exactly on bars where neither
the buy branch (`+1` with positive cash) nor the sell branch (`-1` with a
position) executes, not only on bars with a zero signal. -/
theorem C2_stop_loss_amended (sl : ℚ) (st : Ledger) (price : ℚ)
    (sig : Option ℚ) :
    (0 < st.positions → st.cash = 0 →
      price < st.last_buy_price * (1 - sl) →
        (stepBar (some sl) st price sig).positions = 0 ∧
        (stepBar (some sl) st price sig).cash = st.positions * price) ∧
    (¬(sig = some 1 ∧ 0 < st.cash) → ¬(sig = some (-1) ∧ 0 < st.positions) →
      stepBar (some sl) st price sig =
        if 0 < st.positions ∧ price < st.last_buy_price * (1 - sl) then
          ⟨st.positions * price, 0, 0⟩
        else st) := by
  constructor
  · intro hpos hcash hdrop
    unfold stepBar
    have h1 : ¬(sig = some 1 ∧ 0 < st.cash) := by
      intro hcontra
      rw [hcash] at hcontra
      exact lt_irrefl 0 hcontra.2
    rw [if_neg h1]
    by_cases h2 : sig = some (-1) ∧ 0 < st.positions
    · rw [if_pos h2]
      exact ⟨rfl, rfl⟩
    · rw [if_neg h2]
      dsimp only
      rw [if_pos ⟨hpos, hdrop⟩]
      exact ⟨rfl, rfl⟩
  · intro h1 h2
    unfold stepBar
    rw [if_neg h1, if_neg h2]

/-- Witness for C2's amended statement: a long ledger hit by the stop. -/
theorem C2_stop_loss_amended_witness :
    ((0 : ℚ) < 10 ∧ (0 : ℚ) = 0 ∧ (50 : ℚ) < 100 * (1 - 1 / 10)) ∧
      ((stepBar (some (1 / 10)) ⟨0, 10, 100⟩ 50 (some 1)).positions = 0 ∧
        (stepBar (some (1 / 10)) ⟨0, 10, 100⟩ 50 (some 1)).cash = 10 * 50) :=
  ⟨⟨by decide, rfl, by norm_num⟩,
    (C2_stop_loss_amended (1 / 10) ⟨0, 10, 100⟩ 50 (some 1)).1
      (by decide) rfl (by norm_num)⟩

@[simp] theorem rollingMean_length (w : Nat) (xs : List ℚ) :
    (rollingMean w xs).length = xs.length := by
  simp [rollingMean]

@[simp] theorem calculate_rsi_length (xs : List ℚ) (period : Nat) :
    (calculate_rsi xs period).length = xs.length := by
  simp [calculate_rsi]

@[simp] theorem seriesDiff_length (xs : List ℚ) :
    (seriesDiff xs).length = xs.length := by
  simp [seriesDiff]

/-- Inversion of a successful `generate_signals` run: every output column
in terms of the input and the previously computed columns. -/
theorem generate_signals_some (data : List ℚ) (p : SignalParams)
    (s : SignalFrame) (hs : generate_signals data p = some s) :
    p.long_window ≤ data.length ∧
    s.prices = data ∧
    s.short_mavg = rollingMean p.short_window data ∧
    s.long_mavg = rollingMean p.long_window data ∧
    s.rsi = calculate_rsi data 14 ∧
    s.signal = setSliceFrom (List.replicate data.length 0) p.long_window
      (whereGT ((rollingMean p.short_window data).drop p.long_window)
        ((rollingMean p.long_window data).drop p.long_window)) ∧
    s.positions = (if p.use_rsi then
        applyRsiFilter p.rsi_oversold p.rsi_overbought s.rsi
          (seriesDiff s.signal)
      else seriesDiff s.signal) := by
  by_cases hlt : data.length < p.long_window
  · simp [generate_signals, hlt] at hs
  · have heq : generate_signals data p = some
        ⟨data, rollingMean p.short_window data, rollingMean p.long_window data,
          calculate_rsi data 14,
          setSliceFrom (List.replicate data.length 0) p.long_window
            (whereGT ((rollingMean p.short_window data).drop p.long_window)
              ((rollingMean p.long_window data).drop p.long_window)),
          if p.use_rsi then
            applyRsiFilter p.rsi_oversold p.rsi_overbought
              (calculate_rsi data 14)
              (seriesDiff (setSliceFrom (List.replicate data.length 0)
                p.long_window
                (whereGT ((rollingMean p.short_window data).drop p.long_window)
                  ((rollingMean p.long_window data).drop p.long_window))))
          else
            seriesDiff (setSliceFrom (List.replicate data.length 0)
              p.long_window
              (whereGT ((rollingMean p.short_window data).drop p.long_window)
                ((rollingMean p.long_window data).drop p.long_window)))⟩ := by
      simp [generate_signals, hlt]
    rw [heq] at hs
    have hxs := Option.some.inj hs
    rw [← hxs]
    exact ⟨Nat.le_of_not_lt hlt, rfl, rfl, rfl, rfl, rfl, rfl⟩

theorem getD_drop {α : Type} (l : List α) (i j : Nat) (d : α) :
    (l.drop i).getD j d = l.getD (i + j) d := by
  by_cases h : j < (l.drop i).length
  · have h2 : i + j < l.length := by
      rw [List.length_drop] at h
      omega
    rw [List.getD_eq_getElem _ _ h, List.getD_eq_getElem _ _ h2,
      List.getElem_drop]
  · have h2 : l.length ≤ i + j := by
      rw [List.length_drop] at h
      omega
    rw [List.getD_eq_default _ _ (Nat.le_of_not_lt h),
      List.getD_eq_default _ _ h2]

theorem getD_zipWith_of_lt {α β γ : Type} (f : α → β → γ) (a : List α)
    (b : List β) (t : Nat) (h1 : t < a.length) (h2 : t < b.length)
    (da : α) (db : β) (dc : γ) :
    (List.zipWith f a b).getD t dc = f (a.getD t da) (b.getD t db) := by
  have hz : t < (List.zipWith f a b).length := by
    rw [List.length_zipWith]
    omega
  rw [List.getD_eq_getElem _ _ hz, List.getD_eq_getElem _ _ h1,
    List.getD_eq_getElem _ _ h2, List.getElem_zipWith]

/-- C4: on a series of length at least `long_window`, the trend signal is
1 exactly where the short moving average strictly exceeds the long one, from
index `long_window` on, and 0 at every earlier index. -/
theorem C4_trend_signal (data : List ℚ) (p : SignalParams) (s : SignalFrame)
    (hs : generate_signals data p = some s) (t : Nat) (ht : t < data.length) :
    s.signal.getD t 0 =
      if p.long_window ≤ t ∧ s.long_mavg.getD t 0 < s.short_mavg.getD t 0 then
        (1 : ℚ)
      else 0 := by
  obtain ⟨hlw, -, hshort, hlong, -, hsig, -⟩ :=
    generate_signals_some data p s hs
  rw [hsig, hshort, hlong]
  set S := rollingMean p.short_window data with hS
  set L := rollingMean p.long_window data with hL
  have hSlen : S.length = data.length := by rw [hS]; simp
  have hLlen : L.length = data.length := by rw [hL]; simp
  have htake : (List.replicate data.length (0 : ℚ)).take p.long_window =
      List.replicate p.long_window (0 : ℚ) := by
    rw [List.take_replicate, Nat.min_eq_left hlw]
  rw [setSliceFrom, htake]
  by_cases hcase : t < p.long_window
  · rw [List.getD_append _ _ _ _ (by simpa using hcase)]
    rw [List.getD_eq_getElem _ _ (by simpa using hcase), List.getElem_replicate]
    rw [if_neg]
    intro hcontra
    exact absurd hcontra.1 (Nat.not_le_of_lt hcase)
  · have hge : p.long_window ≤ t := Nat.le_of_not_lt hcase
    rw [List.getD_append_right _ _ _ _ (by simpa using hge),
      List.length_replicate]
    have h1 : t - p.long_window < (S.drop p.long_window).length := by
      rw [List.length_drop]
      omega
    have h2 : t - p.long_window < (L.drop p.long_window).length := by
      rw [List.length_drop]
      omega
    rw [whereGT, getD_zipWith_of_lt _ _ _ _ h1 h2 0 0 0]
    rw [getD_drop, getD_drop]
    have harith : p.long_window + (t - p.long_window) = t := by omega
    rw [harith]
    by_cases hc : L.getD t 0 < S.getD t 0
    · rw [if_pos hc, if_pos ⟨hge, hc⟩]
    · rw [if_neg hc, if_neg (fun hand => hc hand.2)]

/-- Witness for C4 on a three-bar series with windows 1 and 2: the last
index crosses (short mean 3 above long mean 5/2), all earlier indices are
forced to 0. -/
theorem C4_trend_signal_witness :
    (generate_signals [1, 2, 3] ⟨1, 2, false, 35, 70⟩ =
      some ⟨[1, 2, 3], [1, 2, 3], [1, 3 / 2, 5 / 2], [none, none, none],
        [0, 0, 1], [none, some 0, some 1]⟩ ∧ (2 : Nat) < 3) ∧
    (SignalFrame.mk [1, 2, 3] [1, 2, 3] [1, 3 / 2, 5 / 2] [none, none, none]
        [0, 0, 1] [none, some 0, some 1]).signal.getD 2 0 =
      if (2 : Nat) ≥ 2 ∧
          (SignalFrame.mk [1, 2, 3] [1, 2, 3] [1, 3 / 2, 5 / 2]
            [none, none, none] [0, 0, 1]
            [none, some 0, some 1]).long_mavg.getD 2 0 <
          (SignalFrame.mk [1, 2, 3] [1, 2, 3] [1, 3 / 2, 5 / 2]
            [none, none, none] [0, 0, 1]
            [none, some 0, some 1]).short_mavg.getD 2 0 then (1 : ℚ)
      else 0 :=
  ⟨⟨by norm_num [generate_signals, rollingMean, rollingMeanAt, calculate_rsi,
      setSliceFrom, whereGT, seriesDiff, List.range_succ, List.replicate,
      List.getD], by decide⟩,
    C4_trend_signal [1, 2, 3] ⟨1, 2, false, 35, 70⟩ _
      (by norm_num [generate_signals, rollingMean, rollingMeanAt,
        calculate_rsi, setSliceFrom, whereGT, seriesDiff, List.range_succ,
        List.replicate, List.getD]) 2 (by decide)⟩

/-- Length of the trend-signal column equals the input length. -/
theorem generate_signals_signal_length (data : List ℚ) (p : SignalParams)
    (s : SignalFrame) (hs : generate_signals data p = some s) :
    s.signal.length = data.length := by
  obtain ⟨hlw, -, -, -, -, hsig, -⟩ := generate_signals_some data p s hs
  rw [hsig]
  simp [setSliceFrom, whereGT]
  omega

/-- Pointwise description of the RSI filter pass. -/
theorem applyRsiFilter_getD (os ob : ℚ) (R W : List (Option ℚ))
    (hlen : R.length = W.length) (t : Nat) :
    (applyRsiFilter os ob R W).getD t none =
      if W.getD t none = some 1 ∧ optGT (R.getD t none) ob then some 0
      else if W.getD t none = some (-1) ∧ optLT (R.getD t none) os then some 0
      else W.getD t none := by
  by_cases ht : t < W.length
  · rw [applyRsiFilter, getD_zipWith_of_lt _ _ _ _ (by omega) ht none none none]
  · have hW : W.getD t none = none :=
      List.getD_eq_default _ _ (Nat.le_of_not_lt ht)
    have hR : R.getD t none = none := List.getD_eq_default _ _ (by omega)
    have hF : (applyRsiFilter os ob R W).getD t none = none := by
      apply List.getD_eq_default
      rw [applyRsiFilter, List.length_zipWith]
      omega
    rw [hF, hW, hR]
    rw [if_neg, if_neg]
    · intro hcontra
      exact Option.noConfusion hcontra.1
    · intro hcontra
      exact Option.noConfusion hcontra.1

/-- C5: with the RSI filter enabled, a raw `+1` position change at an index
whose RSI is strictly above the overbought level is emitted as 0, a raw
`-1` at an index whose RSI is strictly below the oversold level is emitted
as 0, every other raw value is emitted unchanged, and an undefined (`NaN`)
RSI never suppresses a signal. -/
theorem C5_rsi_filter (data : List ℚ) (p : SignalParams) (s : SignalFrame)
    (huse : p.use_rsi = true) (hs : generate_signals data p = some s)
    (t : Nat) :
    ((seriesDiff s.signal).getD t none = some 1 →
        optGT (s.rsi.getD t none) p.rsi_overbought →
        s.positions.getD t none = some 0) ∧
    ((seriesDiff s.signal).getD t none = some (-1) →
        optLT (s.rsi.getD t none) p.rsi_oversold →
        s.positions.getD t none = some 0) ∧
    (¬((seriesDiff s.signal).getD t none = some 1 ∧
          optGT (s.rsi.getD t none) p.rsi_overbought) →
      ¬((seriesDiff s.signal).getD t none = some (-1) ∧
          optLT (s.rsi.getD t none) p.rsi_oversold) →
      s.positions.getD t none = (seriesDiff s.signal).getD t none) ∧
    (s.rsi.getD t none = none →
      s.positions.getD t none = (seriesDiff s.signal).getD t none) := by
  obtain ⟨hlw, -, -, -, hrsi, -, hpos⟩ := generate_signals_some data p s hs
  rw [huse, if_pos rfl] at hpos
  have hsiglen := generate_signals_signal_length data p s hs
  have hlen : s.rsi.length = (seriesDiff s.signal).length := by
    rw [hrsi, seriesDiff_length, hsiglen, calculate_rsi_length]
  have hD := applyRsiFilter_getD p.rsi_oversold p.rsi_overbought s.rsi
    (seriesDiff s.signal) hlen t
  rw [hpos, hD]
  refine ⟨?_, ?_, ?_, ?_⟩
  · intro h1 h2
    rw [if_pos ⟨h1, h2⟩]
  · intro h1 h2
    have hne : ¬((seriesDiff s.signal).getD t none = some 1 ∧
        optGT (s.rsi.getD t none) p.rsi_overbought) := by
      intro hc
      rw [h1] at hc
      have : (-1 : ℚ) = 1 := Option.some.inj hc.1
      norm_num at this
    rw [if_neg hne, if_pos ⟨h1, h2⟩]
  · intro hn1 hn2
    rw [if_neg hn1, if_neg hn2]
  · intro hnone
    have hg : optGT (s.rsi.getD t none) p.rsi_overbought = false := by
      rw [hnone]
      rfl
    have hl : optLT (s.rsi.getD t none) p.rsi_oversold = false := by
      rw [hnone]
      rfl
    have hn1 : ¬((seriesDiff s.signal).getD t none = some 1 ∧
        optGT (s.rsi.getD t none) p.rsi_overbought) := by
      intro hc
      have hc2 := hc.2
      rw [hg] at hc2
      exact Bool.false_ne_true hc2
    have hn2 : ¬((seriesDiff s.signal).getD t none = some (-1) ∧
        optLT (s.rsi.getD t none) p.rsi_oversold) := by
      intro hc
      have hc2 := hc.2
      rw [hl] at hc2
      exact Bool.false_ne_true hc2
    rw [if_neg hn1, if_neg hn2]

/-- Witness for C5: a run with the filter enabled on a series whose RSI is
undefined everywhere (fewer bars than the RSI period); the raw diff value at
index 2 passes through unchanged. -/
theorem C5_rsi_filter_witness :
    ((SignalParams.mk 1 2 true 35 70).use_rsi = true ∧
      generate_signals [1, 2, 3] ⟨1, 2, true, 35, 70⟩ =
        some ⟨[1, 2, 3], [1, 2, 3], [1, 3 / 2, 5 / 2], [none, none, none],
          [0, 0, 1], [none, some 0, some 1]⟩ ∧
      (SignalFrame.mk [1, 2, 3] [1, 2, 3] [1, 3 / 2, 5 / 2]
        [none, none, none] [0, 0, 1] [none, some 0, some 1]).rsi.getD 2 none =
        none) ∧
    (SignalFrame.mk [1, 2, 3] [1, 2, 3] [1, 3 / 2, 5 / 2] [none, none, none]
        [0, 0, 1] [none, some 0, some 1]).positions.getD 2 none =
      (seriesDiff (SignalFrame.mk [1, 2, 3] [1, 2, 3] [1, 3 / 2, 5 / 2]
        [none, none, none] [0, 0, 1] [none, some 0, some 1]).signal).getD 2
        none :=
  ⟨⟨rfl,
    by norm_num [generate_signals, rollingMean, rollingMeanAt, calculate_rsi,
      setSliceFrom, whereGT, seriesDiff, applyRsiFilter, optGT, optLT,
      List.range_succ, List.replicate, List.getD], rfl⟩,
    (C5_rsi_filter [1, 2, 3] ⟨1, 2, true, 35, 70⟩ _ rfl
      (by norm_num [generate_signals, rollingMean, rollingMeanAt,
        calculate_rsi, setSliceFrom, whereGT, seriesDiff, applyRsiFilter,
        optGT, optLT, List.range_succ, List.replicate, List.getD])
      2).2.2.2 rfl⟩

theorem countWins_cons_of_ne (b : ℚ × Option ℚ) (rest : List (ℚ × Option ℚ))
    (hb : b.2 ≠ some 1) : countWins (b :: rest) = countWins rest := by
  cases rest with
  | nil => rfl
  | cons c r =>
      show (if b.2 = some 1 ∧ c.2 = some (-1) ∧ b.1 < c.1 then 1 else 0) +
        countWins (c :: r) = countWins (c :: r)
      rw [if_neg (fun hc => hb hc.1)]
      exact Nat.zero_add _

theorem countWins_le_half_aux :
    ∀ (n : Nat) (l : List (ℚ × Option ℚ)), l.length ≤ n →
      countWins l ≤ l.length / 2 := by
  intro n
  induction n with
  | zero =>
      intro l hl
      have hnil : l = [] := List.eq_nil_of_length_eq_zero (Nat.le_zero.mp hl)
      subst hnil
      simp [countWins]
  | succ n ih =>
      intro l hl
      match l with
      | [] => simp [countWins]
      | [a] => simp [countWins]
      | a :: b :: rest =>
          have hunf : countWins (a :: b :: rest) =
              (if a.2 = some 1 ∧ b.2 = some (-1) ∧ a.1 < b.1 then 1 else 0) +
                countWins (b :: rest) := rfl
          simp only [List.length_cons] at hl ⊢
          by_cases hwin : a.2 = some 1 ∧ b.2 = some (-1) ∧ a.1 < b.1
          · have hb : b.2 ≠ some 1 := by
              rw [hwin.2.1]
              intro hc
              have hcontra : (-1 : ℚ) = 1 := Option.some.inj hc
              norm_num at hcontra
            have hcw : countWins (b :: rest) = countWins rest :=
              countWins_cons_of_ne b rest hb
            have hrest : countWins rest ≤ rest.length / 2 := ih rest (by omega)
            rw [hunf, if_pos hwin, hcw]
            omega
          · have hrest : countWins (b :: rest) ≤ (b :: rest).length / 2 :=
              ih (b :: rest) (by simp only [List.length_cons]; omega)
            simp only [List.length_cons] at hrest
            rw [hunf, if_neg hwin]
            omega

theorem countWins_le_half (l : List (ℚ × Option ℚ)) :
    countWins l ≤ l.length / 2 :=
  countWins_le_half_aux l.length l (le_refl _)

/-- C6 counterexample: for the signal series below (an undefined first
entry, then `+1`, a profitable `-1`, and a dangling `+1`), the claim's
pairing gives 1 completed, profitable round trip out of
`total_trades = floor(3/2) = 1`, hence 100%.  The code's filter
`positions != 0` also keeps the undefined (`NaN`) first entry, so it sees
4 "trades", `total_trades = 2`, and reports 50%. -/
theorem C6_win_rate_counterexample :
    win_rate [(10, none), (10, some 1), (12, some (-1)), (11, some 1)] = 50 ∧
    win_rate_claim [(10, none), (10, some 1), (12, some (-1)), (11, some 1)] =
      100 ∧
    win_rate [(10, none), (10, some 1), (12, some (-1)), (11, some 1)] ≠
      win_rate_claim [(10, none), (10, some 1), (12, some (-1)), (11, some 1)] := by
  refine ⟨?_, ?_, ?_⟩
  · norm_num [win_rate, winRateOfTrades, tradesOf, countWins, List.filter]
  · norm_num [win_rate_claim, winRateOfTrades, tradesClaim, countWins,
      List.filter]
  · norm_num [win_rate, win_rate_claim, winRateOfTrades, tradesOf,
      tradesClaim, countWins, List.filter]

/-- C6 amended: the reported win rate is always between 0 and 100, is 0
when there is no completed profitable round trip (in particular when
`total_trades = 0`), and equals `wins / total_trades * 100` where wins
counts adjacent `(+1, -1)` pairs with a strictly higher sell price in the
filtered subsequence — but the filter `positions != 0` keeps the undefined
first diff entry as well, so `total_trades` is `floor(len(trades)/2)` of
that longer list, not of the non-zero events alone. -/
theorem C6_win_rate_amended (bars : List (ℚ × Option ℚ)) :
    0 ≤ win_rate bars ∧ win_rate bars ≤ 100 ∧
    (countWins (tradesOf bars) = 0 → win_rate bars = 0) ∧
    ((tradesOf bars).length / 2 = 0 → win_rate bars = 0) ∧
    (0 < (tradesOf bars).length / 2 →
      win_rate bars = ((countWins (tradesOf bars) : ℚ) /
        (((tradesOf bars).length / 2 : Nat) : ℚ)) * 100) := by
  have hunf : win_rate bars = if 0 < (tradesOf bars).length / 2 then
      ((countWins (tradesOf bars) : ℚ) /
        (((tradesOf bars).length / 2 : Nat) : ℚ)) * 100
    else 0 := rfl
  by_cases htt : 0 < (tradesOf bars).length / 2
  · have htq : (0 : ℚ) < (((tradesOf bars).length / 2 : Nat) : ℚ) := by
      exact_mod_cast htt
    have hwle : countWins (tradesOf bars) ≤ (tradesOf bars).length / 2 :=
      countWins_le_half (tradesOf bars)
    have hwq : ((countWins (tradesOf bars) : ℚ)) ≤
        (((tradesOf bars).length / 2 : Nat) : ℚ) := by
      exact_mod_cast hwle
    rw [hunf, if_pos htt]
    refine ⟨?_, ?_, ?_, ?_, ?_⟩
    · apply mul_nonneg _ (by norm_num)
      exact div_nonneg (by positivity) (le_of_lt htq)
    · have hdiv : ((countWins (tradesOf bars) : ℚ)) /
          (((tradesOf bars).length / 2 : Nat) : ℚ) ≤ 1 :=
        (div_le_one htq).mpr hwq
      calc ((countWins (tradesOf bars) : ℚ)) /
            (((tradesOf bars).length / 2 : Nat) : ℚ) * 100 ≤ 1 * 100 :=
          mul_le_mul_of_nonneg_right hdiv (by norm_num)
        _ = 100 := one_mul 100
    · intro hw
      rw [hw]
      norm_num
    · intro hzero
      omega
    · intro _
      rfl
  · rw [hunf, if_neg htt]
    exact ⟨le_refl 0, by norm_num, fun _ => rfl, fun _ => rfl,
      fun hc => absurd hc htt⟩

/-- Witness for C6's amended statement on the counterexample series. -/
theorem C6_win_rate_amended_witness :
    (0 ≤ win_rate [((10 : ℚ), none), (10, some 1), (12, some (-1)), (11, some 1)] ∧
      win_rate [((10 : ℚ), none), (10, some 1), (12, some (-1)), (11, some 1)] ≤ 100) ∧
    (0 < (tradesOf [((10 : ℚ), none), (10, some 1), (12, some (-1)), (11, some 1)]).length / 2 ∧
      win_rate [((10 : ℚ), none), (10, some 1), (12, some (-1)), (11, some 1)] =
        ((countWins (tradesOf [((10 : ℚ), none), (10, some 1), (12, some (-1)), (11, some 1)]) : ℚ) /
          (((tradesOf [((10 : ℚ), none), (10, some 1), (12, some (-1)), (11, some 1)]).length / 2 : Nat) : ℚ)) * 100) := by
  refine ⟨⟨?_, ?_⟩, ?_, ?_⟩
  · exact (C6_win_rate_amended _).1
  · exact (C6_win_rate_amended _).2.1
  · norm_num [tradesOf, List.filter]
  · exact (C6_win_rate_amended _).2.2.2.2
      (by norm_num [tradesOf, List.filter])

theorem foldl_min_le_init (l : List ℚ) : ∀ a : ℚ, l.foldl min a ≤ a := by
  induction l with
  | nil => intro a; exact le_refl a
  | cons x rest ih =>
      intro a
      calc (x :: rest).foldl min a = rest.foldl min (min a x) := rfl
        _ ≤ min a x := ih (min a x)
        _ ≤ a := min_le_left a x

theorem foldl_min_le_mem (l : List ℚ) :
    ∀ (a b : ℚ), b ∈ l → l.foldl min a ≤ b := by
  induction l with
  | nil => intro a b hb; cases hb
  | cons x rest ih =>
      intro a b hb
      rcases List.mem_cons.mp hb with hb | hb
      · subst hb
        calc (b :: rest).foldl min a = rest.foldl min (min a b) := rfl
          _ ≤ min a b := foldl_min_le_init rest (min a b)
          _ ≤ b := min_le_right a b
      · exact ih (min a x) b hb

theorem foldl_min_eq_or_mem (l : List ℚ) :
    ∀ a : ℚ, l.foldl min a = a ∨ l.foldl min a ∈ l := by
  induction l with
  | nil => intro a; exact Or.inl rfl
  | cons x rest ih =>
      intro a
      rcases ih (min a x) with h | h
      · rcases le_total a x with hax | hxa
        · left
          calc (x :: rest).foldl min a = rest.foldl min (min a x) := rfl
            _ = min a x := h
            _ = a := min_eq_left hax
        · right
          have hfx : (x :: rest).foldl min a = x := by
            calc (x :: rest).foldl min a = rest.foldl min (min a x) := rfl
              _ = min a x := h
              _ = x := min_eq_right hxa
          rw [hfx]
          exact List.mem_cons_self x rest
      · right
        exact List.mem_cons_of_mem x h

theorem foldl_min_zero_of_all_zero (l : List ℚ) (h : ∀ b ∈ l, b = 0) :
    l.foldl min 0 = 0 := by
  induction l with
  | nil => rfl
  | cons x rest ih =>
      have hx : x = 0 := h x (List.mem_cons_self x rest)
      have hrest : ∀ b ∈ rest, b = (0 : ℚ) :=
        fun b hb => h b (List.mem_cons_of_mem x hb)
      calc (x :: rest).foldl min 0 = rest.foldl min (min 0 x) := rfl
        _ = rest.foldl min 0 := by rw [hx, min_self]
        _ = 0 := ih hrest

/-- Every drawdown entry is non-positive: the price never exceeds its own
running maximum, and the running maximum stays positive. -/
theorem drawdown_entries_nonpos (l : List ℚ) :
    ∀ m : ℚ, (∀ v ∈ l, 0 < v) → 0 < m →
      ∀ q ∈ List.zipWith (fun v mm => (v - mm) / mm) l (cummaxAux m l),
        q ≤ 0 := by
  induction l with
  | nil => intro m _ _ q hq; cases hq
  | cons x rest ih =>
      intro m hpos hm q hq
      rw [cummaxAux] at hq
      rcases List.mem_cons.mp hq with hq | hq
      · subst hq
        have hmax : 0 < max m x := lt_of_lt_of_le hm (le_max_left m x)
        have hsub : x - max m x ≤ 0 := sub_nonpos.mpr (le_max_right m x)
        show (x - max m x) / max m x ≤ 0
        exact div_nonpos_of_nonpos_of_nonneg hsub (le_of_lt hmax)
      · exact ih (max m x) (fun v hv => hpos v (List.mem_cons_of_mem x hv))
          (lt_of_lt_of_le hm (le_max_left m x)) q hq

/-- A non-decreasing tail leaves the running maximum equal to the series. -/
theorem cummaxAux_of_chain (l : List ℚ) :
    ∀ m : ℚ, List.Chain (fun a b => a ≤ b) m l → cummaxAux m l = l := by
  induction l with
  | nil => intro m _; rfl
  | cons x rest ih =>
      intro m hchain
      rcases List.chain_cons.mp hchain with ⟨hmx, hrest⟩
      rw [cummaxAux, max_eq_right hmx, ih x hrest]

/-- All-zero drawdowns force the series to be non-decreasing. -/
theorem chain_of_drawdown_zero (l : List ℚ) :
    ∀ m : ℚ, 0 < m →
      (∀ q ∈ List.zipWith (fun v mm => (v - mm) / mm) l (cummaxAux m l),
        q = 0) →
      List.Chain (fun a b => a ≤ b) m l := by
  induction l with
  | nil => intro m _ _; exact List.Chain.nil
  | cons x rest ih =>
      intro m hm hzero
      rw [cummaxAux] at hzero
      have hhead : (x - max m x) / max m x = 0 :=
        hzero _ (List.mem_cons_self _ _)
      have hmax : 0 < max m x := lt_of_lt_of_le hm (le_max_left m x)
      have hxeq : x = max m x := by
        rcases div_eq_zero_iff.mp hhead with h | h
        · exact sub_eq_zero.mp h
        · exact absurd h (ne_of_gt hmax)
      have hmx : m ≤ x := hxeq ▸ le_max_left m x
      refine List.chain_cons.mpr ⟨hmx, ?_⟩
      apply ih x (lt_of_lt_of_le hm hmx)
      intro q hq
      apply hzero
      rw [hxeq] at hq
      exact List.mem_cons_of_mem _ hq

/-- Drawdowns of a series against itself are all zero. -/
theorem drawdown_self_zero (l : List ℚ) :
    ∀ q ∈ List.zipWith (fun v mm => (v - mm) / mm) l l, q = 0 := by
  induction l with
  | nil => intro q hq; cases hq
  | cons x rest ih =>
      intro q hq
      rcases List.mem_cons.mp hq with hq | hq
      · subst hq
        show (x - x) / x = 0
        rw [sub_self, zero_div]
      · exact ih q hq

@[simp] theorem cummaxAux_length (l : List ℚ) :
    ∀ m : ℚ, (cummaxAux m l).length = l.length := by
  induction l with
  | nil => intro m; rfl
  | cons x rest ih => intro m; simp [cummaxAux, ih]

theorem cummaxAux_getD (l : List ℚ) :
    ∀ (m : ℚ) (i : Nat), i < l.length →
      (cummaxAux m l).getD i 0 = (l.take (i + 1)).foldl max m := by
  induction l with
  | nil => intro m i hi; cases hi
  | cons x rest ih =>
      intro m i hi
      cases i with
      | zero => rfl
      | succ j =>
          have hj : j < rest.length := by
            simpa using Nat.lt_of_succ_lt_succ hi
          calc (cummaxAux m (x :: rest)).getD (j + 1) 0 =
              (cummaxAux (max m x) rest).getD j 0 := rfl
            _ = (rest.take (j + 1)).foldl max (max m x) := ih (max m x) j hj
            _ = ((x :: rest).take (j + 2)).foldl max m := rfl

theorem prefixMax_cons_succ (x : ℚ) (rest : List ℚ) (j : Nat) :
    prefixMax (x :: rest) (j + 1) = (rest.take (j + 1)).foldl max x := by
  rfl

theorem cummax_getD (eqc : List ℚ) (i : Nat) (hi : i < eqc.length) :
    (cummax eqc).getD i 0 = prefixMax eqc i := by
  cases eqc with
  | nil => cases hi
  | cons x rest =>
      cases i with
      | zero => rfl
      | succ j =>
          have hj : j < rest.length := by
            simpa using Nat.lt_of_succ_lt_succ hi
          calc (cummax (x :: rest)).getD (j + 1) 0 =
              (cummaxAux x rest).getD j 0 := rfl
            _ = (rest.take (j + 1)).foldl max x := cummaxAux_getD rest x j hj
            _ = prefixMax (x :: rest) (j + 1) := rfl

/-- C7: for a non-empty positive equity curve, the reported maximum
drawdown is the minimum over bars of
`(total_value - running_max) / running_max * 100` (attained at some bar and
a lower bound for every bar), it is never positive, and it is zero exactly
when the curve never declines. -/
theorem C7_max_drawdown (eqc : List ℚ) (hne : eqc ≠ [])
    (hpos : ∀ v ∈ eqc, 0 < v) :
    calculate_max_drawdown eqc ≤ 0 ∧
    (calculate_max_drawdown eqc = 0 ↔ List.Chain' (fun a b => a ≤ b) eqc) ∧
    (∃ i, i < eqc.length ∧ calculate_max_drawdown eqc =
      (eqc.getD i 0 - prefixMax eqc i) / prefixMax eqc i * 100) ∧
    (∀ i, i < eqc.length → calculate_max_drawdown eqc ≤
      (eqc.getD i 0 - prefixMax eqc i) / prefixMax eqc i * 100) := by
  match eqc, hne with
  | x :: rest, _ =>
  have hx : 0 < x := hpos x (List.mem_cons_self x rest)
  have hrestpos : ∀ v ∈ rest, 0 < v :=
    fun v hv => hpos v (List.mem_cons_of_mem x hv)
  have hhead : (x - x) / x = 0 := by rw [sub_self, zero_div]
  have hcalc : calculate_max_drawdown (x :: rest) =
      (List.zipWith (fun v mm => (v - mm) / mm) rest
        (cummaxAux x rest)).foldl min ((x - x) / x) * 100 := rfl
  rw [hhead] at hcalc
  set T := List.zipWith (fun v mm => (v - mm) / mm) rest (cummaxAux x rest)
    with hT
  have hTlen : T.length = rest.length := by
    rw [hT, List.length_zipWith, cummaxAux_length, Nat.min_self]
  have hmin_nonpos : T.foldl min 0 ≤ 0 := foldl_min_le_init T 0
  have hbound : calculate_max_drawdown (x :: rest) ≤ 0 := by
    rw [hcalc]
    calc T.foldl min 0 * 100 ≤ 0 * 100 :=
        mul_le_mul_of_nonneg_right hmin_nonpos (by norm_num)
      _ = 0 := zero_mul 100
  refine ⟨hbound, ?_, ?_, ?_⟩
  · constructor
    · intro hz
      rw [hcalc] at hz
      have hmin0 : T.foldl min 0 = 0 := by
        rcases mul_eq_zero.mp hz with h | h
        · exact h
        · norm_num at h
      have hallzero : ∀ q ∈ T, q = 0 := by
        intro q hq
        have hle : q ≤ 0 :=
          drawdown_entries_nonpos rest x hrestpos hx q (hT ▸ hq)
        have hge : 0 ≤ q := hmin0 ▸ foldl_min_le_mem T 0 q hq
        exact le_antisymm hle hge
      have hchain : List.Chain (fun a b => a ≤ b) x rest :=
        chain_of_drawdown_zero rest x hx (fun q hq => hallzero q (hT ▸ hq))
      exact hchain
    · intro hch
      have hch2 : List.Chain (fun a b => a ≤ b) x rest := hch
      have haux : cummaxAux x rest = rest := cummaxAux_of_chain rest x hch2
      have hzero : ∀ q ∈ T, q = 0 := by
        intro q hq
        rw [hT, haux] at hq
        exact drawdown_self_zero rest q hq
      rw [hcalc, foldl_min_zero_of_all_zero T hzero, zero_mul]
  · rcases foldl_min_eq_or_mem T 0 with hz | hmem
    · refine ⟨0, by simp, ?_⟩
      have hpm : prefixMax (x :: rest) 0 = x := rfl
      have hg0 : (x :: rest).getD 0 0 = x := rfl
      rw [hcalc, hz, hpm, hg0, sub_self, zero_div]
    · obtain ⟨j, hj, hget⟩ := List.mem_iff_getElem.mp hmem
      have hjr : j < rest.length := by omega
      have hjc : j < (cummaxAux x rest).length := by
        rw [cummaxAux_length]
        exact hjr
      have hTval : T.getD j 0 =
          (rest.getD j 0 - (cummaxAux x rest).getD j 0) /
            (cummaxAux x rest).getD j 0 := by
        rw [hT, getD_zipWith_of_lt _ _ _ _ hjr hjc 0 0 0]
      have hcm : (cummaxAux x rest).getD j 0 = prefixMax (x :: rest) (j + 1) := by
        rw [cummaxAux_getD rest x j hjr, prefixMax_cons_succ]
      have hgd : rest.getD j 0 = (x :: rest).getD (j + 1) 0 := rfl
      have hTg : T.getD j 0 = T.foldl min 0 := by
        rw [List.getD_eq_getElem T 0 hj, hget]
      refine ⟨j + 1, by simp; omega, ?_⟩
      rw [hcalc, ← hTg, hTval, hcm, hgd]
  · intro i hi
    cases i with
    | zero =>
        have hpm : prefixMax (x :: rest) 0 = x := rfl
        have hg0 : (x :: rest).getD 0 0 = x := rfl
        rw [hpm, hg0, sub_self, zero_div, zero_mul]
        exact hbound
    | succ j =>
        have hjr : j < rest.length := by
          simp only [List.length_cons] at hi
          omega
        have hjc : j < (cummaxAux x rest).length := by
          rw [cummaxAux_length]
          exact hjr
        have hjT : j < T.length := by
          rw [hTlen]
          exact hjr
        have hTval : T.getD j 0 =
            (rest.getD j 0 - (cummaxAux x rest).getD j 0) /
              (cummaxAux x rest).getD j 0 := by
          rw [hT, getD_zipWith_of_lt _ _ _ _ hjr hjc 0 0 0]
        have hcm : (cummaxAux x rest).getD j 0 =
            prefixMax (x :: rest) (j + 1) := by
          rw [cummaxAux_getD rest x j hjr, prefixMax_cons_succ]
        have hgd : rest.getD j 0 = (x :: rest).getD (j + 1) 0 := rfl
        have hmem : T.getD j 0 ∈ T := by
          rw [List.getD_eq_getElem T 0 hjT]
          exact List.getElem_mem hjT
        have hminle : T.foldl min 0 ≤ T.getD j 0 :=
          foldl_min_le_mem T 0 _ hmem
        rw [hcalc, ← hgd, ← hcm, ← hTval]
        exact mul_le_mul_of_nonneg_right hminle (by norm_num)

/-- Witness for C7 on the curve 100, 90, 120 (its drawdown is -10%). -/
theorem C7_max_drawdown_witness :
    (([100, 90, 120] : List ℚ) ≠ [] ∧
      ∀ v ∈ ([100, 90, 120] : List ℚ), 0 < v) ∧
    calculate_max_drawdown [100, 90, 120] ≤ 0 ∧
    (calculate_max_drawdown [100, 90, 120] = 0 ↔
      List.Chain' (fun a b => a ≤ b) ([100, 90, 120] : List ℚ)) :=
  ⟨⟨by decide, by decide⟩,
    (C7_max_drawdown [100, 90, 120] (by decide) (by decide)).1,
    (C7_max_drawdown [100, 90, 120] (by decide) (by decide)).2.1⟩

theorem sum_map_div (l : List ℚ) (c : ℚ) :
    (l.map (fun x => x / c)).sum = l.sum / c := by
  induction l with
  | nil => simp
  | cons x rest ih => simp [ih, add_div]

theorem smartWeights_sum (sharpes : List ℚ) (hne : sharpes ≠ []) :
    (smartWeights sharpes).sum = 1 := by
  rw [smartWeights]
  have hpos : 0 < (sharpes.map (fun s => max s (1 / 100))).sum := by
    apply List.sum_pos
    · intro x hx
      obtain ⟨s, _, hxeq⟩ := List.mem_map.mp hx
      rw [← hxeq]
      calc (0 : ℚ) < 1 / 100 := by norm_num
        _ ≤ max s (1 / 100) := le_max_right _ _
    · intro hc
      exact hne (List.map_eq_nil_iff.mp hc)
  rw [sum_map_div, div_self (ne_of_gt hpos)]

theorem equalWeights_sum (n : Nat) (hn : 0 < n) :
    (equalWeights n).sum = 1 := by
  rw [equalWeights, List.sum_replicate, nsmul_eq_mul, mul_one_div, div_self]
  exact_mod_cast Nat.pos_iff_ne_zero.mp hn

/-- C8: for any non-empty list of ticker results, the allocation weights
sum to exactly 1 in both modes; in equal mode every weight is `1/N`, and in
smart mode weight `i` is the floored Sharpe over the sum of floored
Sharpes. -/
theorem C8_weight_normalization (capital : ℚ) (smart : Bool)
    (rs : List StockResult) (hne : rs ≠ []) :
    (run_portfolio_analysis capital smart rs).weights.sum = 1 ∧
    (smart = false → ∀ i, i < rs.length →
      (run_portfolio_analysis capital smart rs).weights.getD i 0 =
        1 / (rs.length : ℚ)) ∧
    (smart = true → ∀ i, i < rs.length →
      (run_portfolio_analysis capital smart rs).weights.getD i 0 =
        max ((rs.map (fun s => s.sharpe)).getD i 0) (1 / 100) /
          (rs.map (fun s => max s.sharpe (1 / 100))).sum) := by
  have hw : (run_portfolio_analysis capital smart rs).weights =
      (if smart then smartWeights (rs.map (fun s => s.sharpe))
        else equalWeights rs.length) := rfl
  refine ⟨?_, ?_, ?_⟩
  · rw [hw]
    cases smart with
    | false =>
        rw [if_neg Bool.false_ne_true]
        exact equalWeights_sum rs.length (List.length_pos.mpr hne)
    | true =>
        rw [if_pos rfl]
        apply smartWeights_sum
        intro hc
        exact hne (List.map_eq_nil_iff.mp hc)
  · intro hsm i hi
    rw [hw, hsm, if_neg Bool.false_ne_true, equalWeights]
    have hrep : i < (List.replicate rs.length (1 / (rs.length : ℚ))).length := by
      simpa using hi
    rw [List.getD_eq_getElem _ _ hrep, List.getElem_replicate]
  · intro hsm i hi
    rw [hw, hsm, if_pos rfl, smartWeights]
    have him2 : i < (((rs.map (fun s => s.sharpe)).map
        (fun s => max s (1 / 100))).map (fun f => f /
          ((rs.map (fun s => s.sharpe)).map (fun s => max s (1 / 100))).sum)).length := by
      simpa using hi
    rw [List.getD_eq_getElem _ _ him2, List.getElem_map, List.getElem_map,
      List.getElem_map]
    have hmm : (rs.map (fun s => s.sharpe)).map (fun s => max s (1 / 100)) =
        rs.map (fun s => max s.sharpe (1 / 100)) := by
      rw [List.map_map]
      rfl
    have hms : i < (rs.map (fun s => s.sharpe)).length := by
      simpa using hi
    rw [List.getD_eq_getElem _ _ hms, List.getElem_map]
    simp only [hmm]

/-- Witness for C8: two tickers with Sharpe 2 and 1/2 in both modes. -/
theorem C8_weight_normalization_witness :
    ([StockResult.mk [0] [10000] 2, StockResult.mk [0] [10000] (1 / 2)] ≠
        ([] : List StockResult)) ∧
    (run_portfolio_analysis 100000 true
      [StockResult.mk [0] [10000] 2,
        StockResult.mk [0] [10000] (1 / 2)]).weights.sum = 1 ∧
    (run_portfolio_analysis 100000 false
      [StockResult.mk [0] [10000] 2,
        StockResult.mk [0] [10000] (1 / 2)]).weights.sum = 1 :=
  ⟨by decide,
    (C8_weight_normalization 100000 true
      [StockResult.mk [0] [10000] 2, StockResult.mk [0] [10000] (1 / 2)]
      (by decide)).1,
    (C8_weight_normalization 100000 false
      [StockResult.mk [0] [10000] 2, StockResult.mk [0] [10000] (1 / 2)]
      (by decide)).1⟩

theorem heapGet_append (h : Heap) (f : Frame) (r : Nat) (hr : r < h.length) :
    heapGet (h ++ [f]) r = heapGet h r := by
  rw [heapGet, heapGet, List.getD_append _ _ _ _ hr]

theorem heapGet_writeCol_ne (h : Heap) (r r2 : Nat) (name : String)
    (v : ColVal) (hne : r2 ≠ r) :
    heapGet (writeCol h r name v) r2 = heapGet h r2 := by
  rw [writeCol, heapSet, heapGet, List.getD_eq_getElem?_getD,
    List.getElem?_set_ne (Ne.symm hne)]
  rw [heapGet, List.getD_eq_getElem?_getD]

/-- C10: `generate_signals` never mutates its input frame.  Replaying the
function over an explicit heap — where `signals = data.copy()` allocates a
fresh frame and every column assignment mutates only that copy — the frame
at the input reference is identical before and after the call, for every
input series and parameter set. -/
theorem C10_no_input_mutation (p : SignalParams) (h : Heap) (dref : Nat)
    (hd : dref < h.length) :
    heapGet (generate_signals_heap p h dref).1 dref = heapGet h dref := by
  have hne : dref ≠ h.length := Nat.ne_of_lt hd
  by_cases hlt : ((heapGet h dref).getQ "Adj Close").length < p.long_window
  · simp only [generate_signals_heap, hlt, if_true]
  · cases hrsi : p.use_rsi
    · simp only [generate_signals_heap, hlt, if_false, hrsi,
        Bool.false_eq_true]
      rw [heapGet_writeCol_ne _ _ _ _ _ hne, heapGet_writeCol_ne _ _ _ _ _ hne,
        heapGet_writeCol_ne _ _ _ _ _ hne, heapGet_writeCol_ne _ _ _ _ _ hne,
        heapGet_writeCol_ne _ _ _ _ _ hne, heapGet_writeCol_ne _ _ _ _ _ hne,
        heapGet_append _ _ _ hd]
    · simp only [generate_signals_heap, hlt, if_false, hrsi, if_true]
      rw [heapGet_writeCol_ne _ _ _ _ _ hne, heapGet_writeCol_ne _ _ _ _ _ hne,
        heapGet_writeCol_ne _ _ _ _ _ hne, heapGet_writeCol_ne _ _ _ _ _ hne,
        heapGet_writeCol_ne _ _ _ _ _ hne, heapGet_writeCol_ne _ _ _ _ _ hne,
        heapGet_writeCol_ne _ _ _ _ _ hne, heapGet_writeCol_ne _ _ _ _ _ hne,
        heapGet_append _ _ _ hd]

/-- Witness for C10 on a one-frame heap holding a two-bar series. -/
theorem C10_no_input_mutation_witness :
    (0 : Nat) < 1 ∧
    heapGet (generate_signals_heap ⟨1, 2, true, 35, 70⟩
      [Frame.mk [("Adj Close", ColVal.qcol [3, 4])]] 0).1 0 =
      heapGet [Frame.mk [("Adj Close", ColVal.qcol [3, 4])]] 0 :=
  ⟨by decide, C10_no_input_mutation ⟨1, 2, true, 35, 70⟩
    [Frame.mk [("Adj Close", ColVal.qcol [3, 4])]] 0 (by decide)⟩

theorem zipWith_left_comp {α β γ δ : Type} (g : α → δ → γ) (f : α → β → δ) :
    ∀ (as : List α) (bs : List β),
      List.zipWith g as (List.zipWith f as bs) =
        List.zipWith (fun a b => g a (f a b)) as bs := by
  intro as
  induction as with
  | nil => intro bs; rfl
  | cons a as ih =>
      intro bs
      cases bs with
      | nil => rfl
      | cons b bs => simp [List.zipWith, ih]

theorem zipWith_right_comp {α β γ δ : Type} (h : δ → β → γ) (f : α → β → δ) :
    ∀ (as : List α) (bs : List β),
      List.zipWith h (List.zipWith f as bs) bs =
        List.zipWith (fun a b => h (f a b) b) as bs := by
  intro as
  induction as with
  | nil => intro bs; rfl
  | cons a as ih =>
      intro bs
      cases bs with
      | nil => rfl
      | cons b bs => simp [List.zipWith, ih]

theorem zipWith_congr_getElem {α β γ : Type} (F G : α → β → γ)
    (as : List α) (bs : List β)
    (h : ∀ (i : Nat) (h1 : i < as.length) (h2 : i < bs.length),
      F (as.get ⟨i, h1⟩) (bs.get ⟨i, h2⟩) = G (as.get ⟨i, h1⟩) (bs.get ⟨i, h2⟩)) :
    List.zipWith F as bs = List.zipWith G as bs := by
  apply List.ext_getElem (by simp)
  intro i h1 h2
  rw [List.length_zipWith] at h1
  have ha : i < as.length := by omega
  have hb : i < bs.length := by omega
  rw [List.getElem_zipWith, List.getElem_zipWith]
  exact h i ha hb

theorem lookup_cons_self (k : Nat) (b : ℚ) (es : List (Nat × ℚ)) :
    List.lookup k ((k, b) :: es) = some b := by
  rw [List.lookup_cons]
  have hb : (k == k) = true := beq_self_eq_true k
  rw [hb]

theorem lookup_cons_ne (k a : Nat) (b : ℚ) (es : List (Nat × ℚ))
    (h : a ≠ k) : List.lookup a ((k, b) :: es) = List.lookup a es := by
  rw [List.lookup_cons]
  have hb : (a == k) = false := beq_eq_false_iff_ne.mpr h
  rw [hb]

/-- The head of a strictly increasing list is at most its last element. -/
theorem chain_lt_le_getLast? :
    ∀ (l : List Nat) (a D : Nat), List.Chain (fun x y => x < y) a l →
      (a :: l).getLast? = some D → a ≤ D := by
  intro l
  induction l with
  | nil =>
      intro a D _ hlast
      have : a = D := by
        simpa using hlast
      omega
  | cons b r ih =>
      intro a D hchain hlast
      rcases List.chain_cons.mp hchain with ⟨hab, hbr⟩
      rw [List.getLast?_cons_cons] at hlast
      have hbD : b ≤ D := ih b D hbr hlast
      omega

/-- Every element of a strictly increasing list is at most its last
element. -/
theorem chain_lt_mem_le_getLast? (l : List Nat)
    (hch : List.Chain' (fun x y => x < y) l) (D : Nat)
    (hlast : l.getLast? = some D) : ∀ x ∈ l, x ≤ D := by
  induction l with
  | nil => intro x hx; cases hx
  | cons a r ih =>
      intro x hx
      have hch2 : List.Chain (fun x y => x < y) a r := hch
      rcases List.mem_cons.mp hx with hx | hx
      · subst hx
        exact chain_lt_le_getLast? r x D hch2 hlast
      · cases r with
        | nil => cases hx
        | cons b r2 =>
            rw [List.getLast?_cons_cons] at hlast
            exact ih (List.chain_cons.mp hch2).2 hlast x hx

/-- Looking up the last key of a strictly increasing association list
returns the last value. -/
theorem lookup_last :
    ∀ (dates : List Nat) (vals : List ℚ) (D : Nat),
      dates.length = vals.length →
      List.Chain' (fun a b => a < b) dates →
      dates.getLast? = some D →
      (dates.zip vals).lookup D = vals.getLast? := by
  intro dates
  induction dates with
  | nil =>
      intro vals D _ _ hlast
      simp at hlast
  | cons d rest ih =>
      intro vals D hlen hch hlast
      cases vals with
      | nil => simp at hlen
      | cons v vr =>
          cases rest with
          | nil =>
              cases vr with
              | nil =>
                  have hdD : d = D := by
                    simpa using hlast
                  subst hdD
                  show List.lookup d ((d, v) :: []) = some v
                  exact lookup_cons_self d v []
              | cons v2 vr2 => simp at hlen
          | cons d2 rest2 =>
              cases vr with
              | nil => simp at hlen
              | cons v2 vr2 =>
                  have hch2 : List.Chain (fun a b => a < b) d (d2 :: rest2) :=
                    hch
                  rcases List.chain_cons.mp hch2 with ⟨hd12, hrest⟩
                  rw [List.getLast?_cons_cons] at hlast
                  have hd2D : d2 ≤ D := chain_lt_le_getLast? rest2 d2 D hrest hlast
                  have hDd : D ≠ d := by omega
                  have hzip : (d :: d2 :: rest2).zip (v :: v2 :: vr2) =
                      (d, v) :: ((d2 :: rest2).zip (v2 :: vr2)) := rfl
                  have hch3 : List.Chain' (fun a b => a < b) (d2 :: rest2) :=
                    hrest
                  rw [hzip, lookup_cons_ne d D v _ hDd,
                    ih (v2 :: vr2) D (by simpa using hlen) hch3 hlast,
                    List.getLast?_cons_cons]

/-- Elements of a `≤`-sorted list are bounded by its last element. -/
theorem sorted_le_getLast? :
    ∀ (l : List Nat), List.Sorted (fun a b => a ≤ b) l →
      ∀ (Dl : Nat), l.getLast? = some Dl → ∀ x ∈ l, x ≤ Dl := by
  intro l
  induction l with
  | nil =>
      intro _ Dl h
      simp at h
  | cons a rest ih =>
      intro hs Dl hlast x hx
      cases rest with
      | nil =>
          have ha : a = Dl := by simpa using hlast
          have hxa : x = a := by simpa using hx
          omega
      | cons b r =>
          rw [List.getLast?_cons_cons] at hlast
          have hs2 : List.Sorted (fun a b => a ≤ b) (b :: r) :=
            (List.pairwise_cons.mp hs).2
          rcases List.mem_cons.mp hx with hx | hx
          · subst hx
            have hbr : (b :: r) ≠ [] := by simp
            have h1 := List.getLast?_eq_getLast (b :: r) hbr
            rw [h1] at hlast
            have h2 := Option.some.inj hlast
            have h3 := List.getLast_mem hbr
            rw [h2] at h3
            exact (List.pairwise_cons.mp hs).1 Dl h3
          · exact ih hs2 Dl hlast x hx

/-- Membership in the concatenated union of all tickers' dates. -/
theorem mem_datesUnion (rs : List StockResult) (x : Nat) :
    x ∈ rs.foldr (fun s acc => s.dates ++ acc) [] ↔
      ∃ s ∈ rs, x ∈ s.dates := by
  induction rs with
  | nil => simp
  | cons s rest ih => simp [List.mem_append, ih]

theorem match_lookup_add (a : ℚ) (o : Option ℚ) :
    (match o with | some v => a + v | none => a) = a + o.getD 0 := by
  cases o with
  | none => simp
  | some v => simp

theorem addStock_length (common dates : List Nat) (scaled acc : List ℚ) :
    (addStock common dates scaled acc).length =
      min common.length acc.length := by
  simp [addStock]

theorem addStock_getD (common dates : List Nat) (scaled acc : List ℚ)
    (j : Nat) (hj : j < common.length) (hacc : j < acc.length) :
    (addStock common dates scaled acc).getD j 0 =
      acc.getD j 0 + ((dates.zip scaled).lookup (common.getD j 0)).getD 0 := by
  rw [addStock, getD_zipWith_of_lt _ _ _ _ hj hacc 0 0 0]
  exact match_lookup_add _ _

theorem foldl_addStock_length (common : List Nat) :
    ∀ (ps : List (List Nat × List ℚ)) (acc : List ℚ),
      acc.length = common.length →
      (ps.foldl (fun a p => addStock common p.1 p.2 a) acc).length =
        common.length := by
  intro ps
  induction ps with
  | nil => intro acc h; exact h
  | cons p ps ih =>
      intro acc h
      rw [List.foldl_cons]
      apply ih
      rw [addStock_length, h, Nat.min_self]

theorem foldl_addStock_getD (common : List Nat) :
    ∀ (ps : List (List Nat × List ℚ)) (acc : List ℚ),
      acc.length = common.length → ∀ j, j < common.length →
      (ps.foldl (fun a p => addStock common p.1 p.2 a) acc).getD j 0 =
        acc.getD j 0 + (ps.map (fun p =>
          ((p.1.zip p.2).lookup (common.getD j 0)).getD 0)).sum := by
  intro ps
  induction ps with
  | nil =>
      intro acc h j hj
      simp
  | cons p ps ih =>
      intro acc h j hj
      have hlen2 : (addStock common p.1 p.2 acc).length = common.length := by
        rw [addStock_length, h, Nat.min_self]
      rw [List.foldl_cons, ih (addStock common p.1 p.2 acc) hlen2 j hj,
        addStock_getD common p.1 p.2 acc j hj (by omega)]
      rw [List.map_cons, List.sum_cons, add_assoc]

theorem run_weights_length (capital : ℚ) (smart : Bool)
    (rs : List StockResult) :
    (run_portfolio_analysis capital smart rs).weights.length = rs.length := by
  have hw : (run_portfolio_analysis capital smart rs).weights =
      (if smart then smartWeights (rs.map (fun s => s.sharpe))
        else equalWeights rs.length) := rfl
  rw [hw]
  cases smart
  · rw [if_neg Bool.false_ne_true, equalWeights, List.length_replicate]
  · rw [if_pos rfl, smartWeights]
    simp

theorem run_weights_sum (capital : ℚ) (smart : Bool) (rs : List StockResult)
    (hne : rs ≠ []) :
    (run_portfolio_analysis capital smart rs).weights.sum = 1 := by
  have hw : (run_portfolio_analysis capital smart rs).weights =
      (if smart then smartWeights (rs.map (fun s => s.sharpe))
        else equalWeights rs.length) := rfl
  rw [hw]
  cases smart with
  | false =>
      rw [if_neg Bool.false_ne_true]
      exact equalWeights_sum rs.length (List.length_pos.mpr hne)
  | true =>
      rw [if_pos rfl]
      apply smartWeights_sum
      intro hc
      exact hne (List.map_eq_nil_iff.mp hc)

theorem sum_map_mul (l : List ℚ) (c : ℚ) :
    (l.map (fun x => x * c)).sum = l.sum * c := by
  induction l with
  | nil => simp
  | cons x rest ih => simp [ih, add_mul]

theorem run_allocations_sum (capital : ℚ) (smart : Bool)
    (rs : List StockResult) (hne : rs ≠ []) :
    (run_portfolio_analysis capital smart rs).allocations.sum = capital := by
  have ha : (run_portfolio_analysis capital smart rs).allocations =
      (run_portfolio_analysis capital smart rs).weights.map
        (fun w => w * capital) := rfl
  rw [ha, sum_map_mul, run_weights_sum capital smart rs hne, one_mul]

theorem run_allocations_length (capital : ℚ) (smart : Bool)
    (rs : List StockResult) :
    (run_portfolio_analysis capital smart rs).allocations.length =
      rs.length := by
  have ha : (run_portfolio_analysis capital smart rs).allocations =
      (run_portfolio_analysis capital smart rs).weights.map
        (fun w => w * capital) := rfl
  rw [ha, List.length_map, run_weights_length]

/-- Per-ticker profits versus per-ticker contributions at the shared final
date: summed over tickers, the profits equal the final-date contributions
minus the allocations. -/
theorem profit_lookup_sum (D : Nat) :
    ∀ (rs : List StockResult) (al : List ℚ), rs.length = al.length →
      (∀ s ∈ rs, List.Chain' (fun a b => a < b) s.dates ∧
        s.dates.length = s.portfolio_vals.length ∧
        s.dates.getLast? = some D) →
      (List.zipWith (fun (s : StockResult) (a : ℚ) =>
        match (s.portfolio_vals.map (fun v => v * (a / 10000))).getLast? with
        | some v => v - a
        | none => 0) rs al).sum =
      (List.zipWith (fun (s : StockResult) (a : ℚ) =>
        ((s.dates.zip (s.portfolio_vals.map (fun v => v * (a / 10000)))).lookup
          D).getD 0) rs al).sum - al.sum := by
  intro rs
  induction rs with
  | nil =>
      intro al hlen _
      cases al with
      | nil => simp
      | cons a al => simp at hlen
  | cons s rs ih =>
      intro al hlen hyps
      cases al with
      | nil => simp at hlen
      | cons a al =>
          obtain ⟨hch, hlen2, hlast⟩ := hyps s (List.mem_cons_self s rs)
          have hdne : s.dates ≠ [] := by
            intro hc
            rw [hc] at hlast
            simp at hlast
          have hvne : s.portfolio_vals ≠ [] := by
            intro hc
            rw [hc] at hlen2
            simp at hlen2
            exact hdne hlen2
          have hscne : s.portfolio_vals.map (fun v => v * (a / 10000)) ≠ [] := by
            intro hc
            exact hvne (List.map_eq_nil_iff.mp hc)
          obtain ⟨L, hL⟩ : ∃ L,
              (s.portfolio_vals.map (fun v => v * (a / 10000))).getLast? =
                some L :=
            ⟨_, List.getLast?_eq_getLast _ hscne⟩
          have hlk : ((s.dates.zip
              (s.portfolio_vals.map (fun v => v * (a / 10000)))).lookup
                D).getD 0 = L := by
            rw [lookup_last s.dates _ D (by rw [List.length_map]; exact hlen2)
              hch hlast, hL]
            rfl
          have hih := ih al (by simpa using hlen)
            (fun s2 hs2 => hyps s2 (List.mem_cons_of_mem s hs2))
          simp only [List.zipWith_cons_cons, List.sum_cons]
          rw [hL, hih, hlk]
          ring

theorem mem_of_getLast?_eq (l : List Nat) (a : Nat)
    (h : l.getLast? = some a) : a ∈ l := by
  cases l with
  | nil => simp at h
  | cons b r =>
      have hbr : (b :: r) ≠ [] := by simp
      rw [List.getLast?_eq_getLast _ hbr] at h
      have hmem := List.getLast_mem hbr
      rw [Option.some.inj h] at hmem
      exact hmem

/-- C9 counterexample: two tickers, equal allocation of 20000.  Ticker A
has bars on dates 0 and 1 (curve 10000 → 11000), ticker B only on date 0
(curve 10000).  The code's aggregate profit is the per-ticker sum 1000 and
its return is +5%, while the final value of the zero-filled union curve is
11000, so the claim's profit `final − total_capital = -9000` (return −45%)
disagrees. -/
theorem C9_aggregate_counterexample :
    (run_portfolio_analysis 20000 false
      [⟨[0, 1], [10000, 11000], 1⟩, ⟨[0], [10000], 1⟩]).total_profit =
        1000 ∧
    ((run_portfolio_analysis 20000 false
      [⟨[0, 1], [10000, 11000], 1⟩,
        ⟨[0], [10000], 1⟩]).portfolio_values.getLast?).getD 0 = 11000 ∧
    (run_portfolio_analysis 20000 false
      [⟨[0, 1], [10000, 11000], 1⟩, ⟨[0], [10000], 1⟩]).total_return_pct =
        5 ∧
    (run_portfolio_analysis 20000 false
      [⟨[0, 1], [10000, 11000], 1⟩, ⟨[0], [10000], 1⟩]).total_profit ≠
      ((run_portfolio_analysis 20000 false
        [⟨[0, 1], [10000, 11000], 1⟩,
          ⟨[0], [10000], 1⟩]).portfolio_values.getLast?).getD 0 - 20000 := by
  refine ⟨?_, ?_, ?_, ?_⟩ <;>
    · simp [run_portfolio_analysis, equalWeights, addStock, List.lookup,
        List.insertionSort, List.orderedInsert, List.dedup, List.replicate]
      norm_num

/-- C9 amended: the aggregate is computed per ticker, not from the unioned
curve: `total_profit` sums each ticker's final rescaled value minus its
allocation, and `total_return_pct = total_profit / capital * 100`.  The
union curve zero-fills dates a ticker lacks (each slot is the sum of the
rescaled values of exactly those tickers with a bar on that date).  Only
when every ticker's series ends on the same final date `D` does the
aggregate profit coincide with the claim's
`final union value − total_capital` — which the third conjunct proves under
that hypothesis. -/
theorem C9_aggregate_amended (capital : ℚ) (smart : Bool)
    (rs : List StockResult) (hne : rs ≠ []) (D : Nat)
    (hyps : ∀ s ∈ rs, List.Chain' (fun a b => a < b) s.dates ∧
      s.dates.length = s.portfolio_vals.length ∧
      s.dates.getLast? = some D) :
    (run_portfolio_analysis capital smart rs).total_return_pct =
      (run_portfolio_analysis capital smart rs).total_profit / capital *
        100 ∧
    (∀ j, j < (run_portfolio_analysis capital smart rs).common_dates.length →
      (run_portfolio_analysis capital smart rs).portfolio_values.getD j 0 =
        (List.zipWith (fun (s : StockResult) (alloc : ℚ) =>
          ((s.dates.zip (s.portfolio_vals.map
            (fun v => v * (alloc / 10000)))).lookup
              ((run_portfolio_analysis capital smart
                rs).common_dates.getD j 0)).getD 0)
          rs (run_portfolio_analysis capital smart rs).allocations).sum) ∧
    (run_portfolio_analysis capital smart rs).total_profit =
      ((run_portfolio_analysis capital smart
        rs).portfolio_values.getLast?).getD 0 - capital := by
  have hCD : (run_portfolio_analysis capital smart rs).common_dates =
      List.insertionSort (fun a b => a ≤ b)
        ((rs.foldr (fun s acc => s.dates ++ acc) []).dedup) := rfl
  -- the projections used below, written against the definition
  have hPV : (run_portfolio_analysis capital smart rs).portfolio_values =
      (List.zipWith (fun (s : StockResult) (scaled : List ℚ) =>
        (s.dates, scaled)) rs
        (List.zipWith (fun (s : StockResult) (alloc : ℚ) =>
          s.portfolio_vals.map (fun v => v * (alloc / 10000))) rs
          ((run_portfolio_analysis capital smart rs).allocations))).foldl
        (fun acc p => addStock
          ((run_portfolio_analysis capital smart rs).common_dates) p.1 p.2
          acc)
        (List.replicate
          ((run_portfolio_analysis capital smart rs).common_dates.length)
          0) := rfl
  have hTP : (run_portfolio_analysis capital smart rs).total_profit =
      (List.zipWith (fun (scaled : List ℚ) (alloc : ℚ) =>
        match scaled.getLast? with
        | some v => v - alloc
        | none => 0)
        (List.zipWith (fun (s : StockResult) (alloc : ℚ) =>
          s.portfolio_vals.map (fun v => v * (alloc / 10000))) rs
          ((run_portfolio_analysis capital smart rs).allocations))
        ((run_portfolio_analysis capital smart rs).allocations)).sum := rfl
  have hlenA : (run_portfolio_analysis capital smart rs).allocations.length =
      rs.length := run_allocations_length capital smart rs
  -- conjunct 2, proved first so conjunct 3 can instantiate it
  have hzfill : ∀ j,
      j < (run_portfolio_analysis capital smart rs).common_dates.length →
      (run_portfolio_analysis capital smart rs).portfolio_values.getD j 0 =
        (List.zipWith (fun (s : StockResult) (alloc : ℚ) =>
          ((s.dates.zip (s.portfolio_vals.map
            (fun v => v * (alloc / 10000)))).lookup
              ((run_portfolio_analysis capital smart
                rs).common_dates.getD j 0)).getD 0)
          rs (run_portfolio_analysis capital smart rs).allocations).sum := by
    intro j hj
    rw [hPV]
    have hacc : (List.replicate
        ((run_portfolio_analysis capital smart rs).common_dates.length)
        (0 : ℚ)).length =
        (run_portfolio_analysis capital smart rs).common_dates.length := by
      simp
    rw [foldl_addStock_getD _ _ _ hacc j hj]
    have hrep : (List.replicate
        ((run_portfolio_analysis capital smart rs).common_dates.length)
        (0 : ℚ)).getD j 0 = 0 := by
      rw [List.getD_eq_getElem _ _ (by simpa using hj),
        List.getElem_replicate]
    rw [hrep, zero_add, List.map_zipWith, zipWith_left_comp]
  refine ⟨rfl, hzfill, ?_⟩
  -- common facts about the union of dates
  have hub : ∀ x ∈ (run_portfolio_analysis capital smart rs).common_dates,
      x ≤ D := by
    intro x hx
    rw [hCD] at hx
    have hx2 := (List.perm_insertionSort (fun a b => a ≤ b) _).mem_iff.mp hx
    have hx3 := List.mem_dedup.mp hx2
    obtain ⟨s, hs, hxs⟩ := (mem_datesUnion rs x).mp hx3
    obtain ⟨hch, -, hlast⟩ := hyps s hs
    exact chain_lt_mem_le_getLast? s.dates hch D hlast x hxs
  have hDmem : D ∈ (run_portfolio_analysis capital smart rs).common_dates := by
    rw [hCD]
    apply (List.perm_insertionSort (fun a b => a ≤ b) _).mem_iff.mpr
    apply List.mem_dedup.mpr
    apply (mem_datesUnion rs D).mpr
    obtain ⟨s, hs⟩ : ∃ s, s ∈ rs := by
      cases rs with
      | nil => exact absurd rfl hne
      | cons a r => exact ⟨a, List.mem_cons_self a r⟩
    obtain ⟨-, -, hlast⟩ := hyps s hs
    exact ⟨s, hs, mem_of_getLast?_eq _ _ hlast⟩
  have hCDne : (run_portfolio_analysis capital smart rs).common_dates ≠ [] :=
    List.ne_nil_of_mem hDmem
  have hsorted : List.Sorted (fun a b => a ≤ b)
      ((run_portfolio_analysis capital smart rs).common_dates) := by
    rw [hCD]
    exact List.sorted_insertionSort (fun a b => a ≤ b) _
  have hlastCD : (run_portfolio_analysis capital smart
      rs).common_dates.getLast? = some D := by
    obtain ⟨Dc, hDc⟩ : ∃ Dc, (run_portfolio_analysis capital smart
        rs).common_dates.getLast? = some Dc :=
      ⟨_, List.getLast?_eq_getLast _ hCDne⟩
    have hDcmem : Dc ∈ (run_portfolio_analysis capital smart
        rs).common_dates := mem_of_getLast?_eq _ _ hDc
    have h1 : Dc ≤ D := hub Dc hDcmem
    have h2 : D ≤ Dc := sorted_le_getLast? _ hsorted Dc hDc D hDmem
    rw [hDc]
    congr 1
    omega
  have hCDpos : 0 < (run_portfolio_analysis capital smart
      rs).common_dates.length := List.length_pos.mpr hCDne
  have hjidx : (run_portfolio_analysis capital smart
      rs).common_dates.length - 1 <
      (run_portfolio_analysis capital smart rs).common_dates.length := by
    omega
  have hCDlastD : (run_portfolio_analysis capital smart
      rs).common_dates.getD
      ((run_portfolio_analysis capital smart rs).common_dates.length - 1)
      0 = D := by
    rw [List.getD_eq_getElem?_getD, ← List.getLast?_eq_getElem?, hlastCD]
    rfl
  have hPVlen : (run_portfolio_analysis capital smart
      rs).portfolio_values.length =
      (run_portfolio_analysis capital smart rs).common_dates.length := by
    rw [hPV]
    apply foldl_addStock_length
    simp
  have hPVlast : ((run_portfolio_analysis capital smart
      rs).portfolio_values.getLast?).getD 0 =
      (run_portfolio_analysis capital smart rs).portfolio_values.getD
        ((run_portfolio_analysis capital smart rs).common_dates.length - 1)
        0 := by
    rw [List.getLast?_eq_getElem?, hPVlen, List.getD_eq_getElem?_getD]
  have hstep := hzfill
    ((run_portfolio_analysis capital smart rs).common_dates.length - 1)
    hjidx
  rw [hCDlastD] at hstep
  -- rewrite the code's profit sum through the per-ticker lemma
  have hprofit : (run_portfolio_analysis capital smart rs).total_profit =
      (List.zipWith (fun (s : StockResult) (a : ℚ) =>
        match (s.portfolio_vals.map (fun v => v * (a / 10000))).getLast? with
        | some v => v - a
        | none => 0) rs
        ((run_portfolio_analysis capital smart rs).allocations)).sum := by
    rw [hTP]
    congr 1
    exact zipWith_right_comp _ _ rs _
  have hlen2 : rs.length =
      (run_portfolio_analysis capital smart rs).allocations.length := by
    omega
  rw [hprofit, profit_lookup_sum D rs _ hlen2 hyps,
    run_allocations_sum capital smart rs hne, hPVlast, hstep]

/-- Witness for C9's amended statement: two tickers sharing final date 1,
equal mode, capital 20000. -/
theorem C9_aggregate_amended_witness :
    (([⟨[0, 1], [10000, 11000], 1⟩, ⟨[1], [10000], 2⟩] :
        List StockResult) ≠ [] ∧
      ∀ s ∈ ([⟨[0, 1], [10000, 11000], 1⟩, ⟨[1], [10000], 2⟩] :
          List StockResult),
        List.Chain' (fun a b => a < b) s.dates ∧
        s.dates.length = s.portfolio_vals.length ∧
        s.dates.getLast? = some 1) ∧
    (run_portfolio_analysis 20000 false
      [⟨[0, 1], [10000, 11000], 1⟩, ⟨[1], [10000], 2⟩]).total_profit =
      ((run_portfolio_analysis 20000 false
        [⟨[0, 1], [10000, 11000], 1⟩,
          ⟨[1], [10000], 2⟩]).portfolio_values.getLast?).getD 0 - 20000 :=
  ⟨⟨by decide, by simp [List.chain'_cons]⟩,
    (C9_aggregate_amended 20000 false
      [⟨[0, 1], [10000, 11000], 1⟩, ⟨[1], [10000], 2⟩]
      (by decide) 1 (by simp [List.chain'_cons])).2.2⟩

end SHPE
